import Mathlib

/-!
# Verification of the MPQ archive-access engine specification

A shallow embedding of the archive engine described in the repository's
specification: the hash engine, hash-table lookup, sector codec, archive
layer, patch-chain resolver, patch applicator, enumeration and the FFI
file-size accessor, together with theorems settling the specification's
claims about them.

The repository snapshot ships only the C test programs, the FFI header and
example callers; the engine itself (the `wow-mpq` crate) is not among the
source files.  Every definition below whose doc comment starts with
`Modelled from the spec:` is therefore a faithful rendering of the
specification's own description of the missing component.

Bytes are modelled as `Nat` values (< 256 in practice); filenames as lists
of byte values; 32-bit machine arithmetic as `Nat` arithmetic reduced
`% 2^32` where overflow matters.
-/

set_option maxRecDepth 100000

/-- The modulus of the engine's 32-bit arithmetic, 2^32. -/
def u32Mod : Nat := 4294967296

namespace MpqHash

/-- Modelled from the spec: the fixed pseudo-random seed sequence from which
the 0x500-entry substitution table of the Hash Engine is generated
(§4.1: "a precomputed 0x500-entry substitution table seeded from a fixed
pseudo-random sequence derived from a small cryptographic-style constant
seed").  `seedSeq n` is the seed after `n` update steps from the constant
initial seed 0x00100001; each step is `s := (s * 125 + 3) % 0x2AAAAB`. -/
def seedSeq : Nat → Nat
  | 0 => 0x00100001
  | n + 1 => (seedSeq n * 125 + 3) % 0x2AAAAB

/-- Modelled from the spec: one entry of the 0x500-entry substitution table.
Entries are generated in the order `(index1, pass)` with `index1 < 0x100`
and `pass < 5`, stored at `index1 + 0x100 * pass`; the k-th generated entry
combines the high 16 bits drawn from seed step `2k+1` with the low 16 bits
drawn from seed step `2k+2`. -/
def cryptEntry (idx : Nat) : Nat :=
  let index1 := idx % 0x100
  let pass := idx / 0x100
  let k := index1 * 5 + pass
  (seedSeq (2 * k + 1) % 0x10000) * 0x10000 + seedSeq (2 * k + 2) % 0x10000

/-- Modelled from the spec: filename normalization before hashing
(§4.1: "filenames are case-folded and path separators normalized before
hashing").  Lower-case ASCII letters are upper-cased and `/` (47) becomes
`\` (92). -/
def normChar (c : Nat) : Nat :=
  if 97 ≤ c ∧ c ≤ 122 then c - 32
  else if c = 47 then 92
  else c

/-- Modelled from the spec: one step of the Hash Engine state update for one
normalized character, over the running pair `(h1, h2)`. -/
def hashStep (hashType : Nat) (st : Nat × Nat) (c : Nat) : Nat × Nat :=
  let c' := normChar c
  let h1 := (Nat.xor (cryptEntry (hashType * 0x100 + c')) ((st.1 + st.2) % u32Mod)) % u32Mod
  let h2 := (c' + h1 + st.2 + st.2 * 32 + 3) % u32Mod
  (h1, h2)

/-- Modelled from the spec: `tableHash(name, hashType) -> uint32` (§4.1), the
deterministic pure hash of a filename; the three hash types (0 = table
offset, 1 = nameA, 2 = nameB) select different regions of the substitution
table. -/
def tableHash (name : List Nat) (hashType : Nat) : Nat :=
  (name.foldl (hashStep hashType) (0x7FED7FED, 0xEEEEEEEE)).1

end MpqHash

namespace MpqTable

/-- Block-index sentinel marking a hash-table slot that has never been used:
probing stops here (§4.2). -/
def FREE : Nat := 0xFFFFFFFF

/-- Block-index sentinel marking a hash-table slot whose file was deleted:
probing continues past it (§4.2). -/
def DELETED : Nat := 0xFFFFFFFE

/-- Modelled from the spec: one hash-table entry (§3 HashTableEntry):
`nameHashA`/`nameHashB` collision discriminators and a block index that may
be one of the sentinels FREE / DELETED.  Locale and platform are not needed
by the claims under verification and are omitted. -/
structure HashEntry where
  nameHashA : Nat
  nameHashB : Nat
  blockIndex : Nat
  deriving Repr, DecidableEq

/-- The default entry used for out-of-range reads: a FREE slot. -/
def emptySlot : HashEntry := ⟨0, 0, FREE⟩

/-- An entry is live when its block index is neither sentinel. -/
def HashEntry.live (e : HashEntry) : Bool :=
  decide (e.blockIndex ≠ FREE ∧ e.blockIndex ≠ DELETED)

/-- Modelled from the spec: the open-addressing probe of `lookup` (§4.2):
starting at slot `idx`, compare stored nameHashA/B until a matching live
entry (result), a FREE sentinel (stop, not found), or exhaustion of the
fuel (one slot per table entry: full-table traversal, not found).  Returns
the list of visited slot indices together with the lookup result. -/
def probeAux (t : List HashEntry) (nA nB : Nat) : Nat → Nat → List Nat × Option Nat
  | _, 0 => ([], none)
  | idx, fuel + 1 =>
    let e := t.getD idx emptySlot
    if e.blockIndex = FREE then ([idx], none)
    else if e.live ∧ e.nameHashA = nA ∧ e.nameHashB = nB then ([idx], some e.blockIndex)
    else
      let r := probeAux t nA nB ((idx + 1) % t.length) fuel
      (idx :: r.1, r.2)

/-- Modelled from the spec: the slot where the probe for `name` starts:
`tableHash(name, TABLE_OFFSET) mod tableSize` (§4.2). -/
def startSlot (t : List HashEntry) (name : List Nat) : Nat :=
  MpqHash.tableHash name 0 % t.length

/-- Modelled from the spec: `lookup(name) -> BlockTableEntry | NotFound`
(§4.2), here returning the block-table index of the matching live entry, or
`none` for NotFound. -/
def lookup (t : List HashEntry) (name : List Nat) : Option Nat :=
  (probeAux t (MpqHash.tableHash name 1) (MpqHash.tableHash name 2)
    (startSlot t name) t.length).2

/-- The sequence of slots the probe for `name` examines, in order. -/
def probeTrace (t : List HashEntry) (name : List Nat) : List Nat :=
  (probeAux t (MpqHash.tableHash name 1) (MpqHash.tableHash name 2)
    (startSlot t name) t.length).1

/-- Slot `j` of table `t` holds a live entry whose stored name hashes match
`name` (§4.2: "until a matching live entry ... is reached"). -/
def matchesAt (t : List HashEntry) (j : Nat) (name : List Nat) : Prop :=
  (t.getD j emptySlot).live ∧
    (t.getD j emptySlot).nameHashA = MpqHash.tableHash name 1 ∧
    (t.getD j emptySlot).nameHashB = MpqHash.tableHash name 2

instance (t : List HashEntry) (j : Nat) (name : List Nat) :
    Decidable (matchesAt t j name) := by
  unfold matchesAt; infer_instance

end MpqTable

namespace MpqCodec

/-- Errors of the Sector Codec (§7: "`CodecError` (unknown compression code,
decompression failure, ...)"). -/
inductive CodecError where
  | unknownMethod
  | truncated
  deriving Repr, DecidableEq

/-- Modelled from the spec: the sparse run-length codec of the Sector Codec's
fixed codec set (§4.3: "method codes map to a fixed set of codecs (... sparse
RLE ...)").  Runs of equal bytes are emitted as `count, value` pairs with the
count capped at 255 so it fits one byte. -/
def rleEncode : List Nat → List Nat
  | [] => []
  | a :: rest =>
    match rleEncode rest with
    | n :: b :: t => if a = b ∧ n < 255 then (n + 1) :: b :: t else 1 :: a :: n :: b :: t
    | _ => [1, a]

/-- Modelled from the spec: the decoder of the sparse run-length codec;
each `count, value` pair expands to `count` copies of `value`. -/
def rleDecode : List Nat → List Nat
  | n :: b :: rest => List.replicate n b ++ rleDecode rest
  | _ => []

/-- Modelled from the spec: the byte-delta codec standing in for the ADPCM
family of the fixed codec set (§4.3): each output byte is the difference of
consecutive input bytes modulo 256, starting from `prev`. -/
def deltaEncode (prev : Nat) : List Nat → List Nat
  | [] => []
  | a :: rest => (a + 256 - prev % 256) % 256 :: deltaEncode a rest

/-- Modelled from the spec: the decoder of the byte-delta codec: running
sums modulo 256 starting from `prev`. -/
def deltaDecode (prev : Nat) : List Nat → List Nat
  | [] => []
  | d :: rest => (prev + d) % 256 :: deltaDecode ((prev + d) % 256) rest

/-- Modelled from the spec: the fixed, closed set of supported sector codecs
(§4.3).  The deflate-style and true ADPCM codecs of the reference engine are
external-library transforms; the set is modelled by the two codecs above. -/
inductive Codec where
  | rle
  | delta
  deriving Repr, DecidableEq

/-- The compression transform of each codec. -/
def Codec.compress : Codec → List Nat → List Nat
  | .rle => rleEncode
  | .delta => deltaEncode 0

/-- The decompression transform of each codec. -/
def Codec.decompress : Codec → List Nat → List Nat
  | .rle => rleDecode
  | .delta => deltaDecode 0

/-- Modelled from the spec: the method byte stored as the first byte of a
compressed sector, selecting the codec (§4.3: "the first byte of the sector
selects a compression method"). -/
def methodCode : Codec → Nat
  | .rle => 0x20
  | .delta => 0x40

/-- Modelled from the spec: dispatch from a method byte back to its codec;
an unknown code is a `CodecError` (§4.3). -/
def codecOfMethod (m : Nat) : Option Codec :=
  if m = 0x20 then some .rle
  else if m = 0x40 then some .delta
  else none

/-- Modelled from the spec: sector compression as performed by the writer the
format presumes: the compressed form (method byte + payload) is kept only if
it is strictly shorter than the raw sector, otherwise the sector is stored
raw — which is what makes "compressed length == uncompressed sector length"
the store-raw signal on the read side (§4.3). -/
def compressSector (c : Codec) (s : List Nat) : List Nat :=
  let comp := methodCode c :: c.compress s
  if comp.length < s.length then comp else s

/-- Modelled from the spec: sector decompression (§4.3): store-raw is
signaled by compressed length equal to the expected uncompressed sector
length, in which case decompression is skipped; otherwise the first byte
selects the codec, a bad codec code yielding `CodecError`. -/
def decompressSector (expectedLen : Nat) (bytes : List Nat) : Except CodecError (List Nat) :=
  if bytes.length = expectedLen then Except.ok bytes
  else
    match bytes with
    | m :: rest =>
      match codecOfMethod m with
      | some c => Except.ok (c.decompress rest)
      | none => Except.error CodecError.unknownMethod
    | [] => Except.error CodecError.truncated

end MpqCodec

namespace MpqArchive

/-- Modelled from the spec: the parsed archive header (§3 ArchiveHeader):
signature, format version, archive size, sector-size shift and the
offsets/sizes of the two tables. -/
structure ArchiveHeader where
  signature : Nat
  formatVersion : Nat
  archiveSize : Nat
  sectorShift : Nat
  hashTableOffset : Nat
  hashTableSize : Nat
  blockTableOffset : Nat
  blockTableSize : Nat
  deriving Repr, DecidableEq

/-- Sector byte length: `512 << shift` (§3). -/
def ArchiveHeader.sectorSize (h : ArchiveHeader) : Nat :=
  512 * 2 ^ h.sectorShift

/-- Modelled from the spec: one block-table entry (§3 BlockTableEntry):
file byte offset, compressed and uncompressed sizes, and the flag bits. -/
structure BlockTableEntry where
  filePos : Nat
  compressedSize : Nat
  fileSize : Nat
  flagExists : Bool
  flagCompressed : Bool
  flagEncrypted : Bool
  flagSingleUnit : Bool
  flagFixKey : Bool
  flagPatchFile : Bool
  flagDeleteMarker : Bool
  deriving Repr, DecidableEq

/-- Errors of the read path (§7): lookup misses, codec failures, and the
extracted-length check. -/
inductive ReadError where
  | notFound
  | codec (e : MpqCodec.CodecError)
  | sizeMismatch
  deriving Repr, DecidableEq

/-- Modelled from the spec: the uncompressed size each sector of a file must
decode to: full sectors of `sectorSize` bytes plus a trailing sector of the
remainder (§4.3). -/
def sectorExpectedSizes (fileSize sectorSize : Nat) : List Nat :=
  (List.range ((fileSize + sectorSize - 1) / sectorSize)).map
    (fun i => min sectorSize (fileSize - i * sectorSize))

/-- Modelled from the spec: decompress each raw sector against its expected
uncompressed size and concatenate the results in order (§4.3). -/
def decompressAll : List Nat → List (List Nat) → Except MpqCodec.CodecError (List Nat)
  | sz :: sizes, r :: raws => do
    let d ← MpqCodec.decompressSector sz r
    let rest ← decompressAll sizes raws
    pure (d ++ rest)
  | _, _ => Except.ok []

/-- Modelled from the spec: `extract(entry, byteSource) -> bytes | Error`
(§4.3): decompress the file's sectors, concatenate them in order, and
require the final length to equal the declared uncompressed size, else
`SizeMismatch`.  The raw sectors, as carved from the byte source by the
sector offset table, are taken as input. -/
def extract (entry : BlockTableEntry) (sectorSize : Nat) (raws : List (List Nat)) :
    Except ReadError (List Nat) :=
  match decompressAll (sectorExpectedSizes entry.fileSize sectorSize) raws with
  | Except.error e => Except.error (ReadError.codec e)
  | Except.ok content =>
    if content.length = entry.fileSize then Except.ok content
    else Except.error ReadError.sizeMismatch

/-- Modelled from the spec: one open Archive Layer (§3 ArchiveLayer): the
parsed header, hash table and block table, plus the per-block raw sector
data carved from the byte source. -/
structure Archive where
  header : ArchiveHeader
  hashTable : List MpqTable.HashEntry
  blockTable : List BlockTableEntry
  rawSectors : Nat → List (List Nat)

/-- Modelled from the spec: `blockEntry(name) -> BlockTableEntry | NotFound`
(§4.4), via the hash-table lookup. -/
def blockEntryOf (a : Archive) (name : List Nat) : Option BlockTableEntry :=
  (MpqTable.lookup a.hashTable name).bind (fun bi => a.blockTable.get? bi)

/-- Modelled from the spec: `exists(name) -> bool` (§4.4). -/
def existsIn (a : Archive) (name : List Nat) : Bool :=
  (blockEntryOf a name).isSome

/-- Modelled from the spec: `readFull(name) -> bytes | Error` (§4.4): lookup
followed by sector extraction. -/
def readFull (a : Archive) (name : List Nat) : Except ReadError (List Nat) :=
  match MpqTable.lookup a.hashTable name with
  | none => Except.error ReadError.notFound
  | some bi =>
    match a.blockTable.get? bi with
    | none => Except.error ReadError.notFound
    | some e => extract e a.header.sectorSize (a.rawSectors bi)

/-- Modelled from the spec: `readRange(name, offset, length)` (§4.4): whole
sectors covering the range are decoded — here the whole file — and the
requested window is cut from the decoded bytes. -/
def readRange (a : Archive) (name : List Nat) (offset length : Nat) :
    Except ReadError (List Nat) :=
  match readFull a name with
  | Except.error e => Except.error e
  | Except.ok content => Except.ok ((content.drop offset).take length)

end MpqArchive

namespace MpqPatch

/-- Modelled from the spec: one operation of a PTCH fragment.  §3 and §4.6
describe copy ("copy N bytes from base at current cursor", advancing both
cursors) and literal ("insert/replace N literal bytes", advancing only the
write cursor); §2 lists "copy/insert/delete operations", the delete
operation advancing only the base read cursor. -/
inductive PatchOp where
  | copy (n : Nat)
  | literal (bytes : List Nat)
  | skip (n : Nat)
  deriving Repr, DecidableEq

/-- Modelled from the spec: a PTCH incremental-patch fragment (§3
PatchFragment): declared original and patched sizes, an optional content
hash for verification, and the ordered operation sequence.  The signature
word, validated on parse, is not needed by the claims. -/
structure PatchFragment where
  originalSize : Nat
  patchedSize : Nat
  contentHash : Option Nat
  ops : List PatchOp
  deriving Repr, DecidableEq

/-- The typed errors of the Patch Applicator (§4.6/§7): base-size mismatch
before replay, size mismatch on replay overrun/underrun or on a wrong output
length, and a content-hash mismatch after replay. -/
inductive PatchError where
  | BaseSizeMismatch
  | SizeMismatch
  | HashMismatch
  deriving Repr, DecidableEq

/-- Modelled from the spec: the fragment's content hash of §3 ("optional
content hashes for verification"); the spec fixes no algorithm, so a
deterministic 32-bit byte fold stands in. -/
def specHash (l : List Nat) : Nat :=
  l.foldl (fun a b => (a * 131 + b) % u32Mod) 0

/-- Modelled from the spec: sequential replay of the operations (§4.6),
maintaining a read cursor into `base`; returns the produced output together
with the final read-cursor position, or `none` on replay overrun (an
operation reading past the end of the base). -/
def replay (base : List Nat) : Nat → List PatchOp → Option (List Nat × Nat)
  | cursor, [] => some ([], cursor)
  | cursor, PatchOp.copy n :: rest =>
    if cursor + n ≤ base.length then
      match replay base (cursor + n) rest with
      | some (out, c) => some ((base.drop cursor).take n ++ out, c)
      | none => none
    else none
  | cursor, PatchOp.literal bs :: rest =>
    match replay base cursor rest with
    | some (out, c) => some (bs ++ out, c)
    | none => none
  | cursor, PatchOp.skip n :: rest =>
    if cursor + n ≤ base.length then replay base (cursor + n) rest
    else none

/-- Modelled from the spec: `apply(base, fragment) -> patched | Error`
(§4.6): the declared original size must equal the base length
(`BaseSizeMismatch`); replay overrun/underrun and a wrong output length are
size errors; a carried content hash is recomputed and compared
(`HashMismatch`, fatal).  Only a fully validated output is returned. -/
def apply (base : List Nat) (frag : PatchFragment) : Except PatchError (List Nat) :=
  if frag.originalSize ≠ base.length then Except.error PatchError.BaseSizeMismatch
  else
    match replay base 0 frag.ops with
    | none => Except.error PatchError.SizeMismatch
    | some (out, c) =>
      if c ≠ base.length then Except.error PatchError.SizeMismatch
      else if out.length ≠ frag.patchedSize then Except.error PatchError.SizeMismatch
      else
        match frag.contentHash with
        | some h =>
          if specHash out = h then Except.ok out else Except.error PatchError.HashMismatch
        | none => Except.ok out

end MpqPatch

namespace MpqChain

/-- Modelled from the spec: what one layer of a patch chain holds for a
given filename, as seen by the Patch Chain Resolver (§4.5): a delete-marker
entry, a full (non-patch) copy, or an incremental patch fragment. -/
inductive LayerEntry where
  | deleted
  | full (content : List Nat)
  | patch (frag : MpqPatch.PatchFragment)

/-- Modelled from the spec: the interface view of one Archive Layer the
resolver and enumerator consume (§4.4–§4.6, §6): a per-filename entry map
and the layer's optional listfile. -/
structure Layer where
  entry : List Nat → Option LayerEntry
  listfile : Option (List (List Nat)) := none

/-- Resolution outcome errors: `NotFound` (chain exhausted or tombstone) or
a Patch Applicator error escalated by the fold (§4.5/§7). -/
inductive ResolveError where
  | notFound
  | patchError (e : MpqPatch.PatchError)
  deriving Repr, DecidableEq

/-- Modelled from the spec: fold the recorded fragments over the terminal
base content, lowest-priority patch first (§4.5: "fold recorded patch
fragments from lowest-priority patch to highest-priority patch, each time
calling the Patch Applicator"). -/
def foldPatches : List Nat → List MpqPatch.PatchFragment → Except ResolveError (List Nat)
  | c, [] => Except.ok c
  | c, f :: rest =>
    match MpqPatch.apply c f with
    | Except.ok c' => foldPatches c' rest
    | Except.error e => Except.error (ResolveError.patchError e)

/-- Modelled from the spec: the top-down walk of `resolve` (§4.5), carrying
the fragments recorded so far with the lowest-priority recorded fragment at
the head: a delete-marker stops the walk with NotFound; a non-patch copy is
the terminal base over which the fragments are folded; a patch fragment is
recorded; an absent name falls through to the next lower layer; an
exhausted chain is NotFound. -/
def resolveAux (name : List Nat) :
    List Layer → List MpqPatch.PatchFragment → Except ResolveError (List Nat)
  | [], _ => Except.error ResolveError.notFound
  | l :: rest, frags =>
    match l.entry name with
    | some LayerEntry.deleted => Except.error ResolveError.notFound
    | some (LayerEntry.full c) => foldPatches c frags
    | some (LayerEntry.patch p) => resolveAux name rest (p :: frags)
    | none => resolveAux name rest frags

/-- Modelled from the spec: `resolve(chain, name) -> ResolvedContent |
NotFound` (§4.5).  The chain is listed in walk order: highest-priority
(most recently added patch) layer first, base last. -/
def resolve (chain : List Layer) (name : List Nat) : Except ResolveError (List Nat) :=
  resolveAux name chain []

/-- Errors of enumeration (§6): no layer of the chain is backed by a
listfile. -/
inductive EnumError where
  | noListfile
  deriving Repr, DecidableEq

/-- Modelled from the spec: `enumerate(chain, mask)` (§6): a finite sequence
of filenames backed by the layers' optional listfiles; when no layer has a
listfile, enumeration reports failure rather than an empty result — a
documented capability gap. -/
def enumerate (chain : List Layer) (mask : List Nat → Bool) :
    Except EnumError (List (List Nat)) :=
  if chain.all (fun l => l.listfile.isNone) then Except.error EnumError.noListfile
  else Except.ok ((chain.foldr (fun l acc => l.listfile.getD [] ++ acc) []).filter mask)

end MpqChain

namespace MpqState

/-- Modelled from the spec: the state a read-path call can see (§6): the
persisted archive bytes ("the archive byte layout itself ... as read-only
input"), the parsed Archive Layer created on open (§3: "immutable
thereafter"), and the session's patch chain. -/
structure World where
  diskBytes : List Nat
  archive : MpqArchive.Archive
  chain : List MpqChain.Layer

/-- The `exists` read operation in explicit-state form: the result paired
with the world after the call. -/
def existsW (w : World) (name : List Nat) : Bool × World :=
  (MpqArchive.existsIn w.archive name, w)

/-- The `blockEntry` read operation in explicit-state form. -/
def blockEntryW (w : World) (name : List Nat) :
    Option MpqArchive.BlockTableEntry × World :=
  (MpqArchive.blockEntryOf w.archive name, w)

/-- The `readFull` read operation in explicit-state form. -/
def readFullW (w : World) (name : List Nat) :
    Except MpqArchive.ReadError (List Nat) × World :=
  (MpqArchive.readFull w.archive name, w)

/-- The `readRange` read operation in explicit-state form. -/
def readRangeW (w : World) (name : List Nat) (offset length : Nat) :
    Except MpqArchive.ReadError (List Nat) × World :=
  (MpqArchive.readRange w.archive name offset length, w)

/-- The sector-codec `extract` operation in explicit-state form, on block
index `bi` of the world's archive. -/
def extractW (w : World) (e : MpqArchive.BlockTableEntry) (bi : Nat) :
    Except MpqArchive.ReadError (List Nat) × World :=
  (MpqArchive.extract e w.archive.header.sectorSize (w.archive.rawSectors bi), w)

/-- The chain `resolve` operation in explicit-state form. -/
def resolveW (w : World) (name : List Nat) :
    Except MpqChain.ResolveError (List Nat) × World :=
  (MpqChain.resolve w.chain name, w)

end MpqState

namespace StormFfi

/-- Modelled from the spec and the FFI header: `SFileGetFileSize(file,
file_size_high)` returns the low 32 bits of the open file's size and, when
the high out-pointer is non-null, writes the high 32 bits through it
(`src/ffi/storm/include/StormLib.h:27`; the tests pass `nullptr`, the
example passes `&sizeHigh`).  The out-pointer is modelled by whether it is
non-null, and the write-through by the optional second component. -/
def sfileGetFileSize (fileSize : Nat) (highPtrNonNull : Bool) : Nat × Option Nat :=
  (fileSize % u32Mod,
    if highPtrNonNull then some (fileSize / u32Mod % u32Mod) else none)

end StormFfi

section ChainTheorems

open MpqChain

/-- Concrete base content for the chain-folding witness. -/
def w1Base : List Nat := [10, 20]

/-- Concrete fragment turning `[10, 20]` into `[10, 20, 30]`. -/
def w1Frag1 : MpqPatch.PatchFragment :=
  ⟨2, 3, none, [MpqPatch.PatchOp.copy 2, MpqPatch.PatchOp.literal [30]]⟩

/-- Concrete fragment turning `[10, 20, 30]` into `[10, 20]`. -/
def w1Frag2 : MpqPatch.PatchFragment :=
  ⟨3, 2, none, [MpqPatch.PatchOp.copy 2, MpqPatch.PatchOp.skip 1]⟩

/-- Concrete base layer for the chain-folding witness. -/
def w1LayerBase : Layer := ⟨fun _ => some (LayerEntry.full w1Base), none⟩

/-- Concrete lower-priority patch layer for the chain-folding witness. -/
def w1Layer1 : Layer := ⟨fun _ => some (LayerEntry.patch w1Frag1), none⟩

/-- Concrete higher-priority patch layer for the chain-folding witness. -/
def w1Layer2 : Layer := ⟨fun _ => some (LayerEntry.patch w1Frag2), none⟩

/-- C1: over a chain of base content `B`, a fragment `P1` turning `B` into
`C1` and a higher-priority fragment `P2` turning `C1` into `C2`, resolution
returns exactly `C2`; over the chain of only the base and `P1` it returns
exactly `C1` — fragments are folded from lowest-priority patch to
highest-priority patch through the Patch Applicator. -/
theorem resolve_chain_folding
    (name B C1c C2c : List Nat) (P1 P2 : MpqPatch.PatchFragment)
    (Lb L1 L2 : Layer)
    (hb : Lb.entry name = some (LayerEntry.full B))
    (h1 : L1.entry name = some (LayerEntry.patch P1))
    (h2 : L2.entry name = some (LayerEntry.patch P2))
    (ha1 : MpqPatch.apply B P1 = Except.ok C1c)
    (ha2 : MpqPatch.apply C1c P2 = Except.ok C2c) :
    resolve [L2, L1, Lb] name = Except.ok C2c ∧
    resolve [L1, Lb] name = Except.ok C1c := by
  constructor
  · simp [resolve, resolveAux, h2, h1, hb, foldPatches, ha1, ha2]
  · simp [resolve, resolveAux, h1, hb, foldPatches, ha1]

/-- Witness for `resolve_chain_folding` at the concrete two-fragment chain
above. -/
theorem resolve_chain_folding_witness :
    resolve [w1Layer2, w1Layer1, w1LayerBase] [65] = Except.ok [10, 20] ∧
    resolve [w1Layer1, w1LayerBase] [65] = Except.ok [10, 20, 30] :=
  resolve_chain_folding [65] w1Base [10, 20, 30] [10, 20] w1Frag1 w1Frag2
    w1LayerBase w1Layer1 w1Layer2 rfl rfl rfl rfl rfl

/-- Concrete top (patch-archive) layer for the precedence witness. -/
def w2Top : Layer := ⟨fun _ => some (LayerEntry.full [1]), none⟩

/-- Concrete base layer for the precedence witness. -/
def w2Base : Layer := ⟨fun _ => some (LayerEntry.full [2]), none⟩

/-- C2: over a chain of a base archive holding `F` and one higher-priority
patch archive holding a non-patch replacement of `F`, resolution returns the
patch archive's content, never the base's: the walk is top-down and the
first non-patch copy is terminal. -/
theorem resolve_precedence
    (name D B : List Nat) (Lt Lb : Layer)
    (ht : Lt.entry name = some (LayerEntry.full D))
    (_hb : Lb.entry name = some (LayerEntry.full B)) :
    resolve [Lt, Lb] name = Except.ok D ∧
    (D ≠ B → resolve [Lt, Lb] name ≠ Except.ok B) := by
  have h : resolve [Lt, Lb] name = Except.ok D := by
    simp [resolve, resolveAux, ht, foldPatches]
  exact ⟨h, fun hne hc => hne (Except.ok.inj (h ▸ hc))⟩

/-- Witness for `resolve_precedence` at a concrete two-layer chain with
distinct contents. -/
theorem resolve_precedence_witness :
    resolve [w2Top, w2Base] [66] = Except.ok [1] ∧
    resolve [w2Top, w2Base] [66] ≠ Except.ok [2] :=
  ⟨(resolve_precedence [66] [1] [2] w2Top w2Base rfl rfl).1,
   (resolve_precedence [66] [1] [2] w2Top w2Base rfl rfl).2 (by decide)⟩

/-- Concrete full-copy layer sitting above a delete marker. -/
def w3TopLayer : Layer := ⟨fun _ => some (LayerEntry.full [7]), none⟩

/-- Concrete delete-marker layer. -/
def w3DeleteLayer : Layer := ⟨fun _ => some LayerEntry.deleted, none⟩

/-- C3 counterexample: a chain holding a delete-marker for the file in a
lower layer while a higher-priority layer holds a non-patch copy; the walk
terminates at the higher copy, so resolution returns content, not NotFound,
refuting the claim as universally stated. -/
theorem resolve_delete_marker_cex :
    resolve [w3TopLayer, w3DeleteLayer] [70] = Except.ok [7] ∧
    resolve [w3TopLayer, w3DeleteLayer] [70] ≠
      Except.error ResolveError.notFound := by
  refine ⟨rfl, fun hc => ?_⟩
  rw [show resolve [w3TopLayer, w3DeleteLayer] [70] = Except.ok [7] from rfl] at hc
  exact Except.noConfusion hc

/-- The walk of `resolveAux` reports NotFound whenever it reaches a
delete-marker layer with only patch-fragment or absent entries above it,
whatever fragments are already recorded and whatever the lower layers
hold. -/
theorem resolveAux_delete_stops
    (name : List Nat) (lower : List Layer) (Ld : Layer)
    (hd : Ld.entry name = some LayerEntry.deleted) :
    ∀ (upper : List Layer) (frags : List MpqPatch.PatchFragment),
      (∀ l ∈ upper, l.entry name = none ∨
        ∃ p, l.entry name = some (LayerEntry.patch p)) →
      resolveAux name (upper ++ Ld :: lower) frags =
        Except.error ResolveError.notFound := by
  intro upper
  induction upper with
  | nil => intro frags _; simp [resolveAux, hd]
  | cons l rest ih =>
    intro frags hu
    rcases hu l (by simp) with hnone | ⟨p, hp⟩
    · simpa [resolveAux, hnone] using ih frags (fun x hx => hu x (by simp [hx]))
    · simpa [resolveAux, hp] using ih (p :: frags) (fun x hx => hu x (by simp [hx]))

/-- C3 amended: if some layer's block entry for `F` is a delete-marker and
no higher-priority layer holds a non-patch copy of `F` (each higher layer
either lacks `F` or holds a patch fragment for it), then resolution reports
NotFound regardless of any content for `F` in layers below the marker. -/
theorem resolve_delete_marker_amended
    (name : List Nat) (upper lower : List Layer) (Ld : Layer)
    (hd : Ld.entry name = some LayerEntry.deleted)
    (hu : ∀ l ∈ upper, l.entry name = none ∨
      ∃ p, l.entry name = some (LayerEntry.patch p)) :
    resolve (upper ++ Ld :: lower) name = Except.error ResolveError.notFound :=
  resolveAux_delete_stops name lower Ld hd upper [] hu

/-- Concrete patch layer above the delete marker for the amended-claim
witness. -/
def w3PatchLayer : Layer := ⟨fun _ => some (LayerEntry.patch w1Frag1), none⟩

/-- Concrete content layer below the delete marker for the amended-claim
witness. -/
def w3BottomLayer : Layer := ⟨fun _ => some (LayerEntry.full [9, 9]), none⟩

/-- Witness for `resolve_delete_marker_amended`: a patch fragment above the
marker and full content below it; resolution still reports NotFound. -/
theorem resolve_delete_marker_amended_witness :
    resolve [w3PatchLayer, w3DeleteLayer, w3BottomLayer] [70] =
      Except.error ResolveError.notFound :=
  resolve_delete_marker_amended [70] [w3PatchLayer] [w3BottomLayer]
    w3DeleteLayer rfl
    (by intro l hl
        rw [List.mem_singleton] at hl
        exact hl ▸ Or.inr ⟨w1Frag1, rfl⟩)

/-- Concrete layer backed by a listfile for the enumeration witness. -/
def w9Layer : Layer := ⟨fun _ => none, some [[65, 66], [67]]⟩

/-- C9: enumeration over a chain none of whose layers has a listfile
reports failure (the documented capability gap) rather than an empty
sequence; when some layer has a listfile, enumeration yields a finite list
of filenames. -/
theorem enumerate_listfile (chain : List Layer) (mask : List Nat → Bool) :
    ((∀ l ∈ chain, l.listfile = none) →
      enumerate chain mask = Except.error EnumError.noListfile) ∧
    (∀ l ∈ chain, ∀ lf, l.listfile = some lf →
      ∃ names, enumerate chain mask = Except.ok names) := by
  constructor
  · intro h
    unfold enumerate
    rw [if_pos]
    simp only [List.all_eq_true]
    intro l hl
    rw [h l hl]
    rfl
  · intro l hl lf hlf
    unfold enumerate
    rw [if_neg]
    · exact ⟨_, rfl⟩
    · simp only [List.all_eq_true, not_forall]
      exact ⟨l, hl, by rw [hlf]; simp⟩

/-- Witness for `enumerate_listfile`: the empty chain has no listfile and
enumeration fails; a one-layer chain with a listfile enumerates
successfully. -/
theorem enumerate_listfile_witness :
    enumerate [] (fun _ => true) = Except.error EnumError.noListfile ∧
    ∃ names, enumerate [w9Layer] (fun _ => true) = Except.ok names :=
  ⟨(enumerate_listfile [] (fun _ => true)).1 (by intro l hl; cases hl),
   (enumerate_listfile [w9Layer] (fun _ => true)).2 w9Layer
     (List.mem_singleton.mpr rfl) [[65, 66], [67]] rfl⟩

end ChainTheorems

/-- C8: every read-path operation — exists, blockEntry, readFull, readRange,
extract, resolve — returns the world it was given: the persisted archive
bytes and the parsed Archive Layer state (header, hash table, block table)
are unchanged by reads. -/
theorem read_path_frame (w : MpqState.World) (name : List Nat)
    (offset length bi : Nat) (e : MpqArchive.BlockTableEntry) :
    (MpqState.existsW w name).2 = w ∧
    (MpqState.blockEntryW w name).2 = w ∧
    (MpqState.readFullW w name).2 = w ∧
    (MpqState.readRangeW w name offset length).2 = w ∧
    (MpqState.extractW w e bi).2 = w ∧
    (MpqState.resolveW w name).2 = w ∧
    (MpqState.readFullW w name).2.diskBytes = w.diskBytes ∧
    (MpqState.readFullW w name).2.archive = w.archive :=
  ⟨rfl, rfl, rfl, rfl, rfl, rfl, rfl, rfl⟩

/-- C10: `SFileGetFileSize` with a null high out-pointer returns the low 32
bits of the file size and writes nothing through the pointer, and that
return value equals the low word returned when a non-null pointer is
supplied for the same handle. -/
theorem sfileGetFileSize_null_high (fileSize : Nat) :
    (StormFfi.sfileGetFileSize fileSize false).1 = fileSize % u32Mod ∧
    (StormFfi.sfileGetFileSize fileSize false).2 = none ∧
    (StormFfi.sfileGetFileSize fileSize false).1 =
      (StormFfi.sfileGetFileSize fileSize true).1 :=
  ⟨rfl, rfl, rfl⟩

section PatchTheorems

open MpqPatch

/-- C4: applying a fragment either returns output whose length equals the
declared patched size with the replay having consumed the base exactly to
its declared original size, or returns a typed `PatchError`; a replay
leaving unconsumed base or a wrong output length, and a content-hash
mismatch after replay, are reported errors — never silently truncated or
partially patched data. -/
theorem apply_size_and_hash_checks (base : List Nat) (frag : PatchFragment) :
    (∀ out, apply base frag = Except.ok out →
      out.length = frag.patchedSize ∧ frag.originalSize = base.length ∧
      ∃ p, replay base 0 frag.ops = some p ∧ p.2 = base.length) ∧
    (∀ out c, replay base 0 frag.ops = some (out, c) →
      c ≠ base.length ∨ out.length ≠ frag.patchedSize →
      ∃ e, apply base frag = Except.error e) ∧
    (∀ out h, replay base 0 frag.ops = some (out, base.length) →
      frag.contentHash = some h → specHash out ≠ h →
      ∃ e, apply base frag = Except.error e) := by
  refine ⟨?_, ?_, ?_⟩
  · intro out hok
    unfold apply at hok
    split at hok
    · exact Except.noConfusion hok
    · split at hok
      · exact Except.noConfusion hok
      · rename_i horig hrep out' c heq
        split at hok
        · exact Except.noConfusion hok
        · split at hok
          · exact Except.noConfusion hok
          · rename_i hc hlen
            have horig' : frag.originalSize = base.length := by
              by_contra hcon; exact horig hcon
            have hc' : c = base.length := by
              by_contra hcon; exact hc hcon
            have hlen' : out'.length = frag.patchedSize := by
              by_contra hcon; exact hlen hcon
            split at hok
            · split at hok
              · have : out' = out := Except.ok.inj hok
                exact ⟨this ▸ hlen', horig', ⟨(out', c), heq, hc'⟩⟩
              · exact Except.noConfusion hok
            · have : out' = out := Except.ok.inj hok
              exact ⟨this ▸ hlen', horig', ⟨(out', c), heq, hc'⟩⟩
  · intro out c hrep hbad
    by_cases horig : frag.originalSize = base.length
    · rcases hbad with hc | hlen
      · exact ⟨PatchError.SizeMismatch, by simp [apply, hrep, horig, hc]⟩
      · by_cases hc : c = base.length
        · exact ⟨PatchError.SizeMismatch, by simp [apply, hrep, horig, hc, hlen]⟩
        · exact ⟨PatchError.SizeMismatch, by simp [apply, hrep, horig, hc]⟩
    · exact ⟨PatchError.BaseSizeMismatch, by simp [apply, horig]⟩
  · intro out h hrep hhash hne
    by_cases horig : frag.originalSize = base.length
    · by_cases hlen : out.length = frag.patchedSize
      · exact ⟨PatchError.HashMismatch,
          by simp [apply, hrep, horig, hlen, hhash, hne]⟩
      · exact ⟨PatchError.SizeMismatch, by simp [apply, hrep, horig, hlen]⟩
    · exact ⟨PatchError.BaseSizeMismatch, by simp [apply, horig]⟩

/-- Concrete base for the applicator witness. -/
def w4Base : List Nat := [5, 6]

/-- Concrete well-formed fragment for the applicator witness: copies both
base bytes and appends one literal byte. -/
def w4FragOk : PatchFragment :=
  ⟨2, 3, none, [PatchOp.copy 2, PatchOp.literal [7]]⟩

/-- Concrete underrun fragment: consumes only one of the two base bytes. -/
def w4FragShort : PatchFragment := ⟨2, 1, none, [PatchOp.copy 1]⟩

/-- Concrete fragment carrying a wrong content hash. -/
def w4FragBadHash : PatchFragment := ⟨2, 2, some 0, [PatchOp.copy 2]⟩

/-- Witness for `apply_size_and_hash_checks`: a fragment that validates, one
whose replay leaves unconsumed base, and one whose content hash mismatches,
each at concrete inputs. -/
theorem apply_size_and_hash_checks_witness :
    (([5, 6, 7] : List Nat).length = w4FragOk.patchedSize ∧
      w4FragOk.originalSize = w4Base.length ∧
      ∃ p, replay w4Base 0 w4FragOk.ops = some p ∧ p.2 = w4Base.length) ∧
    (∃ e, apply w4Base w4FragShort = Except.error e) ∧
    (∃ e, apply w4Base w4FragBadHash = Except.error e) :=
  ⟨(apply_size_and_hash_checks w4Base w4FragOk).1 [5, 6, 7] rfl,
   (apply_size_and_hash_checks w4Base w4FragShort).2.1 [5] 1 rfl
     (Or.inl (by decide)),
   (apply_size_and_hash_checks w4Base w4FragBadHash).2.2 [5, 6] 0 rfl rfl
     (by decide)⟩

end PatchTheorems

section CodecTheorems

open MpqCodec

/-- Decoding inverts the run-length encoder. -/
theorem rleDecode_rleEncode (l : List Nat) : rleDecode (rleEncode l) = l := by
  induction l with
  | nil => rfl
  | cons a rest ih =>
    rcases hrest : rleEncode rest with _ | ⟨x, _ | ⟨b, t⟩⟩
    · rw [hrest] at ih
      simp only [rleDecode] at ih
      simp [rleEncode, hrest, rleDecode, ← ih]
    · rw [hrest] at ih
      simp only [rleDecode] at ih
      rw [← ih] at hrest
      simp [rleEncode] at hrest
    · rw [hrest] at ih
      simp only [rleDecode] at ih
      by_cases hab : a = b ∧ x < 255
      · show rleDecode (match rleEncode rest with
          | n :: b :: t => if a = b ∧ n < 255 then (n + 1) :: b :: t
            else 1 :: a :: n :: b :: t
          | _ => [1, a]) = a :: rest
        rw [hrest]
        simp only [if_pos hab, rleDecode, List.replicate_succ, List.cons_append, ih]
        rw [hab.1]
      · show rleDecode (match rleEncode rest with
          | n :: b :: t => if a = b ∧ n < 255 then (n + 1) :: b :: t
            else 1 :: a :: n :: b :: t
          | _ => [1, a]) = a :: rest
        rw [hrest]
        simp only [if_neg hab, rleDecode, List.replicate_succ,
          List.replicate_zero, List.cons_append, List.nil_append, ih]

/-- Decoding inverts the byte-delta encoder on byte-valued input. -/
theorem deltaDecode_deltaEncode (l : List Nat) :
    ∀ prev, (∀ b ∈ l, b < 256) → deltaDecode prev (deltaEncode prev l) = l := by
  induction l with
  | nil => intro prev _; rfl
  | cons a rest ih =>
    intro prev hb
    have ha : a < 256 := hb a (by simp)
    have key : (prev + (a + 256 - prev % 256) % 256) % 256 = a := by omega
    simp only [deltaEncode, deltaDecode, key]
    exact congrArg (a :: ·) (ih a (fun b hbm => hb b (List.mem_cons_of_mem _ hbm)))

/-- Decompression inverts compression for every codec of the fixed set, on
byte-valued sectors. -/
theorem codec_round_trip (c : Codec) (s : List Nat) (hb : ∀ b ∈ s, b < 256) :
    c.decompress (c.compress s) = s := by
  cases c
  · exact rleDecode_rleEncode s
  · exact deltaDecode_deltaEncode s 0 hb

/-- C7: for every sector byte sequence and every supported codec,
decompressing the result of compressing that sector returns the original
bytes exactly, and a store-raw sector — signaled by compressed length equal
to the uncompressed sector length — is the identity transform. -/
theorem sector_codec_round_trip (c : Codec) (s : List Nat)
    (hb : ∀ b ∈ s, b < 256) :
    decompressSector s.length (compressSector c s) = Except.ok s ∧
    decompressSector s.length s = Except.ok s := by
  constructor
  · unfold compressSector
    by_cases hlt : (methodCode c :: c.compress s).length < s.length
    · rw [if_pos hlt]
      unfold decompressSector
      rw [if_neg (by omega)]
      cases c
      · simp [methodCode, codecOfMethod, Codec.decompress, Codec.compress,
          rleDecode_rleEncode]
      · simp [methodCode, codecOfMethod, Codec.decompress, Codec.compress,
          deltaDecode_deltaEncode s 0 hb]
    · rw [if_neg hlt]
      unfold decompressSector
      rw [if_pos rfl]
  · unfold decompressSector
    rw [if_pos rfl]

/-- Witness for `sector_codec_round_trip`: a concrete byte-valued sector
that genuinely compresses under the run-length codec round-trips, and the
same sector stored raw is returned unchanged. -/
theorem sector_codec_round_trip_witness :
    (∀ b ∈ ([1, 1, 1, 1, 1, 1, 1, 1] : List Nat), b < 256) ∧
    decompressSector 8 (compressSector Codec.rle [1, 1, 1, 1, 1, 1, 1, 1]) =
      Except.ok [1, 1, 1, 1, 1, 1, 1, 1] ∧
    decompressSector 8 [1, 1, 1, 1, 1, 1, 1, 1] =
      Except.ok [1, 1, 1, 1, 1, 1, 1, 1] :=
  ⟨by decide,
   (sector_codec_round_trip Codec.rle [1, 1, 1, 1, 1, 1, 1, 1] (by decide)).1,
   (sector_codec_round_trip Codec.rle [1, 1, 1, 1, 1, 1, 1, 1] (by decide)).2⟩

end CodecTheorems

section ExtractTheorems

open MpqArchive

/-- C5: for a filename present in a single archive, lookup followed by
extraction produces bytes whose length equals the block-table entry's
declared uncompressed size, and whenever the concatenated decompressed
sectors have any other length, extraction returns the SizeMismatch error
instead of the bytes. -/
theorem lookup_extract_size (a : Archive) (name : List Nat)
    (bi : Nat) (e : BlockTableEntry)
    (hbi : MpqTable.lookup a.hashTable name = some bi)
    (he : a.blockTable.get? bi = some e) :
    (∀ out, readFull a name = Except.ok out → out.length = e.fileSize) ∧
    (∀ content,
      decompressAll (sectorExpectedSizes e.fileSize a.header.sectorSize)
        (a.rawSectors bi) = Except.ok content →
      content.length ≠ e.fileSize →
      readFull a name = Except.error ReadError.sizeMismatch) := by
  constructor
  · intro out hok
    simp only [readFull, hbi, he] at hok
    unfold extract at hok
    split at hok
    · exact Except.noConfusion hok
    · split at hok
      · rename_i hlen
        rw [← Except.ok.inj hok]
        exact hlen
      · exact Except.noConfusion hok
  · intro content hda hne
    simp only [readFull, hbi, he, extract, hda]
    rw [if_neg hne]

/-- Concrete header for the extraction witness: sector shift 3, so sector
size 4096. -/
def w5Header : ArchiveHeader := ⟨0x1A51504D, 1, 4096, 3, 32, 1, 48, 1⟩

/-- Concrete block-table entry for the extraction witness: a stored file of
3 bytes. -/
def w5Entry : BlockTableEntry :=
  ⟨0, 3, 3, true, false, false, false, false, false, false⟩

/-- Concrete filename for the extraction witness. -/
def w5Name : List Nat := [65]

/-- Concrete one-slot hash table holding the witness file. -/
def w5Table : List MpqTable.HashEntry :=
  [⟨MpqHash.tableHash w5Name 1, MpqHash.tableHash w5Name 2, 0⟩]

/-- Concrete archive for the extraction witness. -/
def w5Archive : Archive := ⟨w5Header, w5Table, [w5Entry], fun _ => [[1, 2, 3]]⟩

/-- Witness for `lookup_extract_size`: a concrete one-file archive whose
extraction returns 3 bytes, matching the declared uncompressed size. -/
theorem lookup_extract_size_witness :
    readFull w5Archive w5Name = Except.ok [1, 2, 3] ∧
    ([1, 2, 3] : List Nat).length = w5Entry.fileSize :=
  ⟨rfl, (lookup_extract_size w5Archive w5Name 0 w5Entry rfl rfl).1 [1, 2, 3] rfl⟩

end ExtractTheorems

section ProbeTheorems

open MpqTable

/-- Unfolding of one probe step that stops at a FREE slot. -/
theorem probeAux_succ_free (t : List HashEntry) (nA nB idx fuel : Nat)
    (h1 : (t.getD idx emptySlot).blockIndex = FREE) :
    probeAux t nA nB idx (fuel + 1) = ([idx], none) := by
  simp only [probeAux]
  rw [if_pos h1]

/-- Unfolding of one probe step that stops at a matching live slot. -/
theorem probeAux_succ_hit (t : List HashEntry) (nA nB idx fuel : Nat)
    (h1 : (t.getD idx emptySlot).blockIndex ≠ FREE)
    (h2 : (t.getD idx emptySlot).live = true ∧
      (t.getD idx emptySlot).nameHashA = nA ∧
      (t.getD idx emptySlot).nameHashB = nB) :
    probeAux t nA nB idx (fuel + 1) =
      ([idx], some (t.getD idx emptySlot).blockIndex) := by
  simp only [probeAux]
  rw [if_neg h1, if_pos h2]

/-- Unfolding of one probe step that advances to the next slot. -/
theorem probeAux_succ_next (t : List HashEntry) (nA nB idx fuel : Nat)
    (h1 : (t.getD idx emptySlot).blockIndex ≠ FREE)
    (h2 : ¬((t.getD idx emptySlot).live = true ∧
      (t.getD idx emptySlot).nameHashA = nA ∧
      (t.getD idx emptySlot).nameHashB = nB)) :
    probeAux t nA nB idx (fuel + 1) =
      (idx :: (probeAux t nA nB ((idx + 1) % t.length) fuel).1,
        (probeAux t nA nB ((idx + 1) % t.length) fuel).2) := by
  simp only [probeAux]
  rw [if_neg h1, if_neg h2]

/-- The slots a probe of bounded fuel visits form an initial segment of the
linear wraparound sequence out of its start slot. -/
theorem probeAux_trace_form (t : List HashEntry) (nA nB : Nat) :
    ∀ (fuel idx : Nat), idx < t.length →
      ∃ k, k ≤ fuel ∧
        (probeAux t nA nB idx fuel).1 =
          (List.range k).map (fun i => (idx + i) % t.length) := by
  intro fuel
  induction fuel with
  | zero => intro idx _; exact ⟨0, le_rfl, rfl⟩
  | succ fuel ih =>
    intro idx hidx
    by_cases h1 : (t.getD idx emptySlot).blockIndex = FREE
    · refine ⟨1, by omega, ?_⟩
      rw [probeAux_succ_free t nA nB idx fuel h1]
      rw [show (List.range 1).map (fun i => (idx + i) % t.length) =
        [idx % t.length] from rfl, Nat.mod_eq_of_lt hidx]
    · by_cases h2 : (t.getD idx emptySlot).live = true ∧
        (t.getD idx emptySlot).nameHashA = nA ∧
        (t.getD idx emptySlot).nameHashB = nB
      · refine ⟨1, by omega, ?_⟩
        rw [probeAux_succ_hit t nA nB idx fuel h1 h2]
        rw [show (List.range 1).map (fun i => (idx + i) % t.length) =
          [idx % t.length] from rfl, Nat.mod_eq_of_lt hidx]
      · have hpos : 0 < t.length := Nat.pos_of_ne_zero (by omega)
        obtain ⟨k, hk, htr⟩ := ih ((idx + 1) % t.length) (Nat.mod_lt _ hpos)
        refine ⟨k + 1, by omega, ?_⟩
        rw [probeAux_succ_next t nA nB idx fuel h1 h2]
        show idx :: (probeAux t nA nB ((idx + 1) % t.length) fuel).1 = _
        rw [htr, List.range_succ_eq_map, List.map_cons, List.map_map]
        refine List.cons_eq_cons.mpr ⟨(Nat.mod_eq_of_lt hidx).symm, ?_⟩
        refine List.map_congr_left (fun i _ => ?_)
        simp only [Function.comp_apply]
        rw [Nat.mod_add_mod]
        congr 1
        omega

/-- An initial segment of a linear wraparound sequence never repeats a slot
while it is no longer than the table. -/
theorem arith_trace_nodup (L s k : Nat) (hk : k ≤ L) :
    ((List.range k).map (fun i => (s + i) % L)).Nodup := by
  rcases Nat.eq_zero_or_pos L with hL | hL
  · have hz : k = 0 := by omega
    subst hz
    simp
  · refine List.Nodup.map_on ?_ (List.nodup_range k)
    intro i hi j hj hij
    rw [List.mem_range] at hi hj
    have hmod : i ≡ j [MOD L] := Nat.ModEq.add_left_cancel' s hij
    unfold Nat.ModEq at hmod
    rw [Nat.mod_eq_of_lt (by omega), Nat.mod_eq_of_lt (by omega)] at hmod
    exact hmod

/-- Stop conditions of the probe: a `some` result comes from a matching
live entry in the last visited slot, a `none` result ends at a FREE slot or
exhausts the fuel, and every non-final visited slot is neither FREE nor
matching. -/
theorem probeAux_stop (t : List HashEntry) (nA nB : Nat) :
    ∀ (fuel idx : Nat),
      (∀ b, (probeAux t nA nB idx fuel).2 = some b →
        ∃ j, (probeAux t nA nB idx fuel).1.getLast? = some j ∧
          ((t.getD j emptySlot).live = true ∧
            (t.getD j emptySlot).nameHashA = nA ∧
            (t.getD j emptySlot).nameHashB = nB) ∧
          (t.getD j emptySlot).blockIndex = b) ∧
      ((probeAux t nA nB idx fuel).2 = none →
        (∃ j, (probeAux t nA nB idx fuel).1.getLast? = some j ∧
          (t.getD j emptySlot).blockIndex = FREE) ∨
        (probeAux t nA nB idx fuel).1.length = fuel) ∧
      (∀ j ∈ (probeAux t nA nB idx fuel).1.dropLast,
        (t.getD j emptySlot).blockIndex ≠ FREE ∧
        ¬((t.getD j emptySlot).live = true ∧
          (t.getD j emptySlot).nameHashA = nA ∧
          (t.getD j emptySlot).nameHashB = nB)) := by
  intro fuel
  induction fuel with
  | zero =>
    intro idx
    refine ⟨?_, ?_, ?_⟩
    · intro b hb; exact Option.noConfusion hb
    · intro _; right; rfl
    · intro j hj; exact absurd hj (List.not_mem_nil j)
  | succ fuel ih =>
    intro idx
    by_cases h1 : (t.getD idx emptySlot).blockIndex = FREE
    · rw [probeAux_succ_free t nA nB idx fuel h1]
      refine ⟨?_, ?_, ?_⟩
      · intro b hb; exact Option.noConfusion hb
      · intro _; exact Or.inl ⟨idx, rfl, h1⟩
      · intro j hj; exact absurd hj (List.not_mem_nil j)
    · by_cases h2 : (t.getD idx emptySlot).live = true ∧
        (t.getD idx emptySlot).nameHashA = nA ∧
        (t.getD idx emptySlot).nameHashB = nB
      · rw [probeAux_succ_hit t nA nB idx fuel h1 h2]
        refine ⟨?_, ?_, ?_⟩
        · intro b hb
          exact ⟨idx, rfl, h2, Option.some.inj hb⟩
        · intro hn; exact Option.noConfusion hn
        · intro j hj; exact absurd hj (List.not_mem_nil j)
      · rw [probeAux_succ_next t nA nB idx fuel h1 h2]
        refine ⟨?_, ?_, ?_⟩
        · intro b hb
          obtain ⟨j, hj1, hj2, hj3⟩ := (ih ((idx + 1) % t.length)).1 b hb
          refine ⟨j, ?_, hj2, hj3⟩
          show (idx :: (probeAux t nA nB ((idx + 1) % t.length) fuel).1).getLast?
            = some j
          rcases htrl : (probeAux t nA nB ((idx + 1) % t.length) fuel).1 with
            _ | ⟨y, ys⟩
          · rw [htrl] at hj1
            simp at hj1
          · rw [htrl] at hj1
            rw [List.getLast?_cons_cons]
            exact hj1
        · intro hn
          rcases (ih ((idx + 1) % t.length)).2.1 hn with ⟨j, hj1, hj2⟩ | hlen
          · left
            refine ⟨j, ?_, hj2⟩
            show (idx :: (probeAux t nA nB ((idx + 1) % t.length) fuel).1).getLast?
              = some j
            rcases htrl : (probeAux t nA nB ((idx + 1) % t.length) fuel).1 with
              _ | ⟨y, ys⟩
            · rw [htrl] at hj1
              simp at hj1
            · rw [htrl] at hj1
              rw [List.getLast?_cons_cons]
              exact hj1
          · right
            show (idx :: (probeAux t nA nB ((idx + 1) % t.length) fuel).1).length
              = fuel + 1
            rw [List.length_cons, hlen]
        · intro j hj
          replace hj : j ∈
              (idx :: (probeAux t nA nB ((idx + 1) % t.length) fuel).1).dropLast :=
            hj
          rcases htrl : (probeAux t nA nB ((idx + 1) % t.length) fuel).1 with
            _ | ⟨y, ys⟩
          · rw [htrl] at hj
            exact absurd hj (List.not_mem_nil j)
          · rw [htrl, List.dropLast_cons₂, List.mem_cons] at hj
            rcases hj with rfl | hj
            · exact ⟨h1, h2⟩
            · have hrec := (ih ((idx + 1) % t.length)).2.2 j
              rw [htrl] at hrec
              exact hrec hj

/-- C6: for every table state and filename the probe of `lookup` starts at
`tableHash(name, TABLE_OFFSET) mod tableSize` and advances linearly with
wraparound, visiting at most `tableSize` pairwise-distinct slots — it never
traverses the table more than once — and stops either at the first matching
live entry (the result), at a FREE sentinel (NotFound), or after visiting
every slot (NotFound). -/
theorem lookup_probe_characterization (t : List HashEntry) (name : List Nat)
    (h : 0 < t.length) :
    (∃ k, k ≤ t.length ∧ probeTrace t name =
      (List.range k).map (fun i => (startSlot t name + i) % t.length)) ∧
    (probeTrace t name).Nodup ∧
    (probeTrace t name).length ≤ t.length ∧
    (∀ b, lookup t name = some b →
      ∃ j, (probeTrace t name).getLast? = some j ∧ matchesAt t j name ∧
        (t.getD j emptySlot).blockIndex = b) ∧
    (∀ j ∈ (probeTrace t name).dropLast,
      ¬ matchesAt t j name ∧ (t.getD j emptySlot).blockIndex ≠ FREE) ∧
    (lookup t name = none →
      (∃ j, (probeTrace t name).getLast? = some j ∧
        (t.getD j emptySlot).blockIndex = FREE) ∨
      (probeTrace t name).length = t.length) := by
  have hstart : startSlot t name < t.length := Nat.mod_lt _ h
  obtain ⟨k, hk, htr⟩ :=
    probeAux_trace_form t (MpqHash.tableHash name 1) (MpqHash.tableHash name 2)
      t.length (startSlot t name) hstart
  have htr' : probeTrace t name =
      (List.range k).map (fun i => (startSlot t name + i) % t.length) := htr
  have hstop :=
    probeAux_stop t (MpqHash.tableHash name 1) (MpqHash.tableHash name 2)
      t.length (startSlot t name)
  refine ⟨⟨k, hk, htr'⟩, ?_, ?_, ?_, ?_, ?_⟩
  · rw [htr']
    exact arith_trace_nodup t.length (startSlot t name) k hk
  · rw [htr', List.length_map, List.length_range]
    exact hk
  · intro b hb
    obtain ⟨j, hj1, hj2, hj3⟩ := hstop.1 b hb
    exact ⟨j, hj1, hj2, hj3⟩
  · intro j hj
    have hstep := hstop.2.2 j hj
    exact ⟨hstep.2, hstep.1⟩
  · intro hn
    exact hstop.2.1 hn

/-- Concrete one-entry table for the probe witness. -/
def w6Table : List MpqTable.HashEntry := [⟨11, 22, 0⟩]

/-- Witness for `lookup_probe_characterization`: on a concrete one-slot
table the probe visits at most one slot and never repeats a slot. -/
theorem lookup_probe_characterization_witness :
    0 < w6Table.length ∧ (MpqTable.probeTrace w6Table [66]).Nodup ∧
    (MpqTable.probeTrace w6Table [66]).length ≤ w6Table.length :=
  ⟨by decide,
   (lookup_probe_characterization w6Table [66] (by decide)).2.1,
   (lookup_probe_characterization w6Table [66] (by decide)).2.2.1⟩

end ProbeTheorems
